import Mathlib

/-!
Shallow embedding of the `gix` gitignore pattern engine and proofs about it.

Strings are modelled as `List Char` (`Str`). Machine-level details that cannot
affect the verified properties (hash-map iteration order, `Result` wrappers
that are always `Ok`) are modelled by lists in source order and by plain
functions, as noted at each definition.
-/

set_option maxRecDepth 10000

abbrev Str := List Char

/-- Rust `char::is_whitespace` (the Unicode White_Space property), used by
`str::trim` / `trim_end`. -/
def rustIsWhitespace (c : Char) : Bool :=
  [0x9, 0xA, 0xB, 0xC, 0xD, 0x20, 0x85, 0xA0, 0x1680,
   0x2000, 0x2001, 0x2002, 0x2003, 0x2004, 0x2005, 0x2006, 0x2007,
   0x2008, 0x2009, 0x200A, 0x2028, 0x2029, 0x202F, 0x205F, 0x3000].contains c.toNat

/-- Rust `str::trim_end`. -/
def trimEndWs (s : Str) : Str := (s.reverse.dropWhile rustIsWhitespace).reverse

/-- Rust `str::trim_start`. -/
def trimStartWs (s : Str) : Str := s.dropWhile rustIsWhitespace

/-- Rust `str::trim` (both ends). -/
def rustTrim (s : Str) : Str := trimStartWs (trimEndWs s)

/-- Rust `str::contains(&str)`: substring containment. -/
def strContainsB : Str → Str → Bool
  | [], sub => sub.isEmpty
  | c :: t, sub => sub.isPrefixOf (c :: t) || strContainsB t sub

/-- `models/gitignore.rs` `EntryType`. -/
inductive EntryType where
  | pattern (p : Str)
  | comment (c : Str)
  | blank
deriving DecidableEq, Repr

/-- `models/gitignore.rs` `GitignoreEntry`. -/
structure GitignoreEntry where
  original : Str
  entryType : EntryType
  lineNumber : Nat
deriving DecidableEq, Repr

def GitignoreEntry.isPattern (e : GitignoreEntry) : Bool :=
  match e.entryType with | .pattern _ => true | _ => false

def GitignoreEntry.isComment (e : GitignoreEntry) : Bool :=
  match e.entryType with | .comment _ => true | _ => false

def GitignoreEntry.isBlank (e : GitignoreEntry) : Bool :=
  match e.entryType with | .blank => true | _ => false

/-- `models/gitignore.rs` `FileStats`. -/
structure FileStats where
  totalLines : Nat
  patternLines : Nat
  commentLines : Nat
  blankLines : Nat
  duplicatePatterns : Nat
deriving DecidableEq, Repr

def FileStats.new : FileStats := ⟨0, 0, 0, 0, 0⟩

/-- `FileStats::update`: bump the total and the per-variant counter. -/
def FileStats.update (s : FileStats) (e : GitignoreEntry) : FileStats :=
  match e.entryType with
  | .pattern _ => { s with totalLines := s.totalLines + 1, patternLines := s.patternLines + 1 }
  | .comment _ => { s with totalLines := s.totalLines + 1, commentLines := s.commentLines + 1 }
  | .blank => { s with totalLines := s.totalLines + 1, blankLines := s.blankLines + 1 }

/-- `models/gitignore.rs` `GitignoreFile`. -/
structure GitignoreFile where
  entries : List GitignoreEntry
  stats : FileStats
deriving DecidableEq, Repr

def GitignoreFile.new : GitignoreFile := ⟨[], FileStats.new⟩

/-- `GitignoreFile::add_entry`: update stats, push the entry. -/
def GitignoreFile.addEntry (f : GitignoreFile) (e : GitignoreEntry) : GitignoreFile :=
  ⟨f.entries ++ [e], f.stats.update e⟩

/-- Building a file by repeated `add_entry` from `GitignoreFile::new()`, the way
the parser and every optimizer variant construct their outputs. -/
def buildFile (es : List GitignoreEntry) : GitignoreFile :=
  es.foldl GitignoreFile.addEntry GitignoreFile.new

/-- Join a list of lines with `'\n'` separators (Rust `[&str]::join("\n")`). -/
def joinNl : List Str → Str
  | [] => []
  | [x] => x
  | x :: y :: xs => x ++ '\n' :: joinNl (y :: xs)

/-- `GitignoreFile::to_string`: the entries' original lines joined by `'\n'`,
with no trailing newline added. -/
def GitignoreFile.render (f : GitignoreFile) : Str :=
  joinNl (f.entries.map (·.original))

/-- Rust `str::split_inclusive('\n')`: chunks of the text, each ending with the
`'\n'` that terminated it (the final chunk may lack one); empty text gives no
chunks. -/
def splitInc : Str → List Str
  | [] => []
  | c :: t =>
    if c = '\n' then [c] :: splitInc t
    else
      match splitInc t with
      | [] => [[c]]
      | ch :: rest => (c :: ch) :: rest

/-- The per-chunk map of Rust `str::lines`: strip one trailing `'\n'`, and then
one trailing `'\r'` if the `'\n'` was stripped. -/
def chunkToLine (ch : Str) : Str :=
  if ch.getLast? = some '\n' then
    let s := ch.dropLast
    if s.getLast? = some '\r' then s.dropLast else s
  else ch

/-- Rust `str::lines()`, as used by `parse_gitignore`. -/
def rustLines (s : Str) : List Str := (splitInc s).map chunkToLine

/-- `parser.rs` `remove_inline_comment`'s scanning loop, carrying the `escaped`
flag: push escaped characters verbatim, push `'\\'` and set the flag, stop at
an unescaped `'#'`. -/
def ricGo : Str → Bool → Str
  | [], _ => []
  | c :: t, escaped =>
    if escaped then c :: ricGo t false
    else if c = '\\' then c :: ricGo t true
    else if c = '#' then []
    else c :: ricGo t false

/-- `parser.rs` `remove_inline_comment`. -/
def removeInlineComment (line : Str) : Str := ricGo line false

/-- `parser.rs` `parse_line` (the `Result` is always `Ok` in the source, so the
entry is returned directly). -/
def parseLine (line : Str) (lineNumber : Nat) : GitignoreEntry :=
  if (rustTrim line).isEmpty then
    ⟨line, .blank, lineNumber⟩
  else if ['#'].isPrefixOf line && !(['\\', '#'].isPrefixOf line) then
    ⟨line, .comment line, lineNumber⟩
  else
    ⟨line, .pattern (removeInlineComment line), lineNumber⟩

/-- The enumeration loop of `parse_gitignore`: parse each line, numbering from
`n` upward. -/
def parseEntries : List Str → Nat → List GitignoreEntry
  | [], _ => []
  | l :: ls, n => parseLine l n :: parseEntries ls (n + 1)

/-- `parser.rs` `parse_gitignore` (always `Ok` in the source). -/
def parseGitignore (content : Str) : GitignoreFile :=
  buildFile (parseEntries (rustLines content) 1)

/-- `pattern_analyzer.rs` `PatternAnalyzer::normalize_pattern`'s slash-collapse
loop; the flag records that the previously emitted character was a `'/'` whose
consecutive repeats are being skipped. -/
def collapseGo : Bool → Str → Str
  | _, [] => []
  | skip, c :: t =>
    if c = '/' then
      if skip then collapseGo true t else '/' :: collapseGo true t
    else c :: collapseGo false t

def collapseSlashes (s : Str) : Str := collapseGo false s

/-- `PatternAnalyzer::normalize_pattern` for the default analyzer
(`normalize_patterns = true`) on a non-Windows target (`cfg!(windows)` is
false, so no backslash replacement): trim trailing whitespace, then collapse
duplicate slashes. -/
def normalizePattern (p : Str) : Str := collapseSlashes (trimEndWs p)

/-- `PatternAnalysis::is_negation`: the normalized pattern starts with `'!'`. -/
def isNegation (normalized : Str) : Bool := ['!'].isPrefixOf normalized

/-- `PatternAnalysis::base_pattern`: drop the leading `'!'` when negated. -/
def basePattern (normalized : Str) : Str :=
  if isNegation normalized then normalized.tail else normalized

/-- `PatternAnalysis::are_base_patterns_equivalent`: exact match, or a single
trailing-slash difference, or a single leading-slash difference. -/
def baseEqB (p1 p2 : Str) : Bool :=
  p1 == p2
  || (p1.getLast? == some '/' && p2 == p1.dropLast)
  || (p2.getLast? == some '/' && p1 == p2.dropLast)
  || (p1.head? == some '/' && p2 == p1.tail)
  || (p2.head? == some '/' && p1 == p2.tail)

/-- `PatternAnalyzer::are_equivalent`: identical normalized forms, or
equivalent de-negated base patterns. -/
def areEquivalentB (pattern1 pattern2 : Str) : Bool :=
  let n1 := normalizePattern pattern1
  let n2 := normalizePattern pattern2
  n1 == n2 || baseEqB (basePattern n1) (basePattern n2)

/-- `PatternAnalysis::could_conflict_with`, hence
`PatternAnalyzer::are_conflicting`: exactly one of the pair is negated, and
the base patterns are equivalent. -/
def areConflictingB (pattern1 pattern2 : Str) : Bool :=
  let n1 := normalizePattern pattern1
  let n2 := normalizePattern pattern2
  isNegation n1 != isNegation n2 && baseEqB (basePattern n1) (basePattern n2)

/-- `PatternAnalyzer::find_conflicts`: all unordered pairs, scanned once. -/
def findConflicts : List Str → List (Str × Str)
  | [] => []
  | p :: rest =>
    (rest.filter (fun q => areConflictingB p q)).map (fun q => (p, q)) ++ findConflicts rest

/-- The entry loop of `optimize_gitignore_with_analyzer` (default analyzer):
drop a pattern when some already-kept pattern is equivalent to it, keep
comments and blanks unconditionally. The `seen` HashSet is modelled as a list;
the membership test is an order-independent `any`. -/
def optGo (seen : List Str) : List GitignoreEntry → List GitignoreEntry
  | [] => []
  | e :: rest =>
    match e.entryType with
    | .pattern p =>
      if seen.any (fun s => areEquivalentB p s) then optGo seen rest
      else e :: optGo (p :: seen) rest
    | .comment _ => e :: optGo seen rest
    | .blank => e :: optGo seen rest

/-- `optimizer.rs` `optimize_gitignore` (standard mode; always `Ok` in the
source). -/
def optimizeGitignore (f : GitignoreFile) : GitignoreFile :=
  buildFile (optGo [] f.entries)

/-- The entry loop of `optimize_gitignore_aggressive_with_analyzer`; `lastBlank`
records that the output is nonempty and its last kept entry is blank. -/
def optAgGo (seenP seenC : List Str) (lastBlank : Bool) :
    List GitignoreEntry → List GitignoreEntry
  | [] => []
  | e :: rest =>
    match e.entryType with
    | .pattern p =>
      if seenP.any (fun s => areEquivalentB p s) then optAgGo seenP seenC lastBlank rest
      else e :: optAgGo (p :: seenP) seenC false rest
    | .comment c =>
      if seenC.contains (rustTrim c) then optAgGo seenP seenC lastBlank rest
      else e :: optAgGo seenP (rustTrim c :: seenC) false rest
    | .blank =>
      if lastBlank then optAgGo seenP seenC lastBlank rest
      else e :: optAgGo seenP seenC true rest

/-- `optimizer.rs` `optimize_gitignore_aggressive` (always `Ok`). -/
def optimizeGitignoreAggressive (f : GitignoreFile) : GitignoreFile :=
  buildFile (optAgGo [] [] false f.entries)

/-- The pattern strings of a file, in order (the `filter_map` in
`optimize_gitignore_with_conflicts`). -/
def patternStrings (f : GitignoreFile) : List Str :=
  f.entries.filterMap (fun e => match e.entryType with | .pattern p => some p | _ => none)

/-- `optimizer.rs` `optimize_gitignore_with_conflicts`: the same dedup loop as
standard mode, paired with the batch conflict scan. -/
def optimizeGitignoreWithConflicts (f : GitignoreFile) :
    GitignoreFile × List (Str × Str) :=
  (buildFile (optGo [] f.entries), findConflicts (patternStrings f))

/-- `models/errors.rs` `GixError` (the `IoError` payload, an opaque
`std::io::Error`, is not needed by any claim). -/
inductive GixError where
  | fileNotFound (s : Str)
  | permissionDenied (s : Str)
  | invalidPattern (s : Str)
  | ioError
  | parseError (s : Str)
deriving DecidableEq, Repr

/-- `validator.rs` `validate_pattern`. -/
def validatePattern (pattern : Str) : Except GixError Unit :=
  if (rustTrim pattern).isEmpty then
    .error (.invalidPattern "Pattern cannot be empty".data)
  else
    .ok ()

/-- `categorizer.rs` `PatternCategory`. Category names are kept as Lean
`String`s since only whole-name equality is ever used on them. -/
inductive PatternCategory where
  | language (name : String)
  | framework (name : String)
  | tool (name : String)
  | operatingSystem (name : String)
  | custom (name : String)
  | uncategorized
deriving DecidableEq, Repr

/-- `PatternCategorizer::matches_with_character_class`: expand the first
`[...]` character class (first `'['` / first `']'`, in that order) into its
literal alternatives and compare each expansion for exact equality. -/
def matchesWithCharClassB (pattern known : Str) : Bool :=
  match known.findIdx? (· = '['), known.findIdx? (· = ']') with
  | some start, some stop =>
    if start < stop then
      let before := known.take start
      let inside := (known.take stop).drop (start + 1)
      let after := known.drop (stop + 1)
      inside.any (fun ch => pattern == before ++ ch :: after)
    else false
  | _, _ => false

/-- `PatternCategorizer::pattern_matches`: exact match, else character-class
expansion, else single-`'*'` prefix/suffix match, else substring containment
in either direction. -/
def patternMatchesB (pattern known : Str) : Bool :=
  pattern == known
  || ((known.contains '[' && known.contains ']') && matchesWithCharClassB pattern known)
  || (known.count '*' == 1
      && (known.takeWhile (· ≠ '*')).isPrefixOf pattern
      && ((known.dropWhile (· ≠ '*')).tail).isSuffixOf pattern)
  || strContainsB pattern known
  || strContainsB known pattern

/-- `PatternCategorizer::is_custom_pattern`. -/
def isCustomPatternB (pattern : Str) : Bool :=
  "custom/".data.isPrefixOf pattern
  || "project/".data.isPrefixOf pattern
  || "local/".data.isPrefixOf pattern
  || "temp/".data.isPrefixOf pattern
  || "tmp/".data.isPrefixOf pattern
  || strContainsB pattern "config".data
  || strContainsB pattern "settings".data
  || strContainsB pattern "local".data
  || strContainsB pattern "dev".data
  || strContainsB pattern "prod".data
  || strContainsB pattern "test".data

/-- The language knowledge base from `initialize_common_patterns`, in source
insertion order (`HashMap` iteration order is unspecified in Rust; the list
order here stands in for one arbitrary iteration order). -/
def languagePatternsKB : List (String × List String) :=
  [("Python",
    ["*.py[cod]", "*.so", "__pycache__/", "*.egg", "*.egg-info/", "dist/", "build/",
     "eggs/", "parts/", "bin/", "var/", "sdist/", "develop-eggs/", "*.egg-info/",
     ".installed.cfg", "*.manifest", "*.spec", "pip-log.txt",
     "pip-delete-this-directory.txt", ".Python", "env/", "venv/", "ENV/", "env.bak/",
     "venv.bak/", ".pytest_cache/", ".coverage", "htmlcov/", ".tox/", ".nox/",
     ".cache", ".mypy_cache/", ".dmypy.json", "dmypy.json"]),
   ("Node.js",
    ["node_modules/", "npm-debug.log*", "yarn-debug.log*", "yarn-error.log*",
     "lerna-debug.log*", ".npm", ".eslintcache", ".node_repl_history", "*.tgz",
     ".yarn-integrity", ".env.local", ".env.development.local", ".env.test.local",
     ".env.production.local", "coverage/", ".nyc_output", ".grunt",
     "bower_components/", ".lock-wscript", "build/Release", ".node_repl_history",
     "*.tgz", ".yarn-integrity", ".next/", "out/"]),
   ("Java",
    ["*.class", "*.log", "*.ctxt", ".mtj.tmp/", "*.jar", "*.war", "*.nar", "*.ear",
     "*.zip", "*.tar.gz", "*.rar", "hs_err_pid*", "replay_pid*", "target/",
     "!.mvn/wrapper/maven-wrapper.jar", "!**/src/main/**/target/",
     "!**/src/test/**/target/", ".idea/", "*.iws", "*.iml", "*.ipr", ".gradle/",
     "build/", "!gradle/wrapper/gradle-wrapper.jar"]),
   ("Rust",
    ["target/", "Cargo.lock", "*.pdb", "*.exe", "*.dll", "*.so", "*.dylib", "*.rlib",
     "*.rmeta", "*.rbc", "*.dSYM/", "*.su", "*.idb", "*.pdb", "*.ilk", "*.exp",
     "*.lib", "*.a", "*.o", "*.so", "*.dylib"]),
   ("Go",
    ["*.exe", "*.exe~", "*.dll", "*.so", "*.dylib", "*.test", "*.out", "go.work",
     "vendor/", ".go-version"])]

/-- The framework knowledge base from `initialize_common_patterns`. -/
def frameworkPatternsKB : List (String × List String) :=
  [("React",
    ["node_modules/", ".pnp", ".pnp.js", "coverage/", "build/", ".DS_Store",
     ".env.local", ".env.development.local", ".env.test.local",
     ".env.production.local", "npm-debug.log*", "yarn-debug.log*",
     "yarn-error.log*", ".next/", "out/"]),
   ("Django",
    ["*.log", "local_settings.py", "db.sqlite3", "db.sqlite3-journal", "media/",
     "staticfiles/", ".env", ".venv", "env/", "venv/", "ENV/", "env.bak/",
     "venv.bak/", ".pytest_cache/"]),
   ("Spring",
    ["*.class", "*.log", "*.ctxt", ".mtj.tmp/", "*.jar", "*.war", "*.nar", "*.ear",
     "*.zip", "*.tar.gz", "*.rar", "hs_err_pid*", "replay_pid*", "target/",
     ".idea/", "*.iws", "*.iml", "*.ipr"])]

/-- The tool knowledge base from `initialize_common_patterns`. -/
def toolPatternsKB : List (String × List String) :=
  [("VSCode",
    [".vscode/", "*.code-workspace", ".vscode/settings.json", ".vscode/tasks.json",
     ".vscode/launch.json", ".vscode/extensions.json"]),
   ("IntelliJ", [".idea/", "*.iws", "*.iml", "*.ipr", ".idea_modules/"]),
   ("Eclipse",
    [".metadata", "bin/", "tmp/", "*.tmp", "*.bak", "*.swp", "*~.nib",
     "local.properties", ".settings/", ".loadpath", ".recommenders"]),
   ("Vim", ["*.swp", "*.swo", "*~", ".vim/", ".viminfo", ".vimrc"]),
   ("Emacs",
    ["*~", "#*#", ".#*", ".emacs.desktop", ".emacs.desktop.lock", "*.elc",
     "auto-save-list", "tramp", ".emacs.desktop.lock"])]

/-- The OS knowledge base from `initialize_common_patterns`. -/
def osPatternsKB : List (String × List String) :=
  [("macOS",
    [".DS_Store", ".AppleDouble", ".LSOverride", "Icon", "._*",
     ".DocumentRevisions-V100", ".fseventsd", ".Spotlight-V100", ".TemporaryItems",
     ".Trashes", ".VolumeIcon.icns", ".com.apple.timemachine.donotpresent",
     ".AppleDB", ".AppleDesktop", "Network Trash Folder", "Temporary Items",
     ".apdisk", ".VolumeIcon.icns", ".fseventsd", ".Spotlight-V100"]),
   ("Windows",
    ["Thumbs.db", "Thumbs.db:encryptable", "ehthumbs.db", "ehthumbs_vista.db",
     "*.tmp", "*.temp", "Desktop.ini", "$RECYCLE.BIN/", "*.cab", "*.msi", "*.msix",
     "*.msm", "*.msp", "*.lnk", "*.stackdump"]),
   ("Linux",
    ["*~", "*.swp", "*.swo", "*~", ".nfs*", ".fuse_hidden*", ".directory",
     ".Trash-*", ".nfs*", ".fuse_hidden*"])]

/-- One group scan of `categorize_pattern`: the first knowledge-base key whose
pattern list has a match. -/
def findCategoryName (kb : List (String × List String)) (np : Str) : Option String :=
  (kb.find? (fun entry => entry.2.any (fun kp => patternMatchesB np kp.data))).map (·.1)

/-- `PatternCategorizer::categorize_pattern`: trim, then test the groups in
fixed precedence order OS, Language, Tool, Framework, custom heuristic,
`Uncategorized`. -/
def categorizePattern (pattern : Str) : PatternCategory :=
  let np := rustTrim pattern
  match findCategoryName osPatternsKB np with
  | some os => .operatingSystem os
  | none =>
    match findCategoryName languagePatternsKB np with
    | some lang => .language lang
    | none =>
      match findCategoryName toolPatternsKB np with
      | some tool => .tool tool
      | none =>
        match findCategoryName frameworkPatternsKB np with
        | some fw => .framework fw
        | none =>
          if isCustomPatternB np then .custom "Project-specific"
          else .uncategorized

/-- The parser's escape flag after scanning a prefix, starting from flag `b`:
any character clears an active escape, an unescaped `'\\'` sets it. -/
def escState (b : Bool) (s : Str) : Bool :=
  s.foldl (fun esc c => if esc then false else c == '\\') b

/-- Strip one trailing `'\n'` (the `str::lines` per-chunk map restricted to
text without CRLF sequences). -/
def stripNl (ch : Str) : Str :=
  if ch.getLast? = some '\n' then ch.dropLast else ch

/-- The aggregate counts of a file agree with its entry sequence. -/
def statsConsistent (f : GitignoreFile) : Prop :=
  f.stats.totalLines = f.entries.length ∧
  f.stats.patternLines = (f.entries.filter (·.isPattern)).length ∧
  f.stats.commentLines = (f.entries.filter (·.isComment)).length ∧
  f.stats.blankLines = (f.entries.filter (·.isBlank)).length

instance (f : GitignoreFile) : Decidable (statsConsistent f) := by
  unfold statsConsistent; infer_instance

/-- Entry line numbers are strictly ascending in sequence order. -/
def ascendingLines (f : GitignoreFile) : Prop :=
  (f.entries.map (·.lineNumber)).Pairwise (· < ·)

instance (f : GitignoreFile) : Decidable (ascendingLines f) := by
  unfold ascendingLines; infer_instance

/-- The file invariant of claim C7: consistent counts and ascending line
numbers. -/
def fileInvariant (f : GitignoreFile) : Prop :=
  statsConsistent f ∧ ascendingLines f

instance (f : GitignoreFile) : Decidable (fileInvariant f) := by
  unfold fileInvariant; infer_instance

lemma foldl_addEntry_entries (es : List GitignoreEntry) (f : GitignoreFile) :
    (es.foldl GitignoreFile.addEntry f).entries = f.entries ++ es := by
  induction es generalizing f with
  | nil => simp
  | cons e rest ih => simp [List.foldl_cons, ih, GitignoreFile.addEntry]

lemma buildFile_entries (es : List GitignoreEntry) : (buildFile es).entries = es := by
  simp [buildFile, foldl_addEntry_entries, GitignoreFile.new]

lemma optGo_idem (es : List GitignoreEntry) :
    ∀ seen, optGo seen (optGo seen es) = optGo seen es := by
  induction es with
  | nil => intro seen; rfl
  | cons e rest ih =>
    intro seen
    obtain ⟨o, ty, ln⟩ := e
    cases ty with
    | pattern p =>
      by_cases h : (seen.any fun s => areEquivalentB p s) = true
      · simp [optGo, h, ih]
      · simp [optGo, h, ih]
    | comment c => simp [optGo, ih]
    | blank => simp [optGo, ih]

lemma optGo_filter_nonpattern (es : List GitignoreEntry) :
    ∀ seen, (optGo seen es).filter (fun e => e.isComment || e.isBlank) =
      es.filter (fun e => e.isComment || e.isBlank) := by
  induction es with
  | nil => intro seen; rfl
  | cons e rest ih =>
    intro seen
    obtain ⟨o, ty, ln⟩ := e
    cases ty with
    | pattern p =>
      by_cases h : (seen.any fun s => areEquivalentB p s) = true
      · simp only [optGo]
        rw [if_pos h,
          List.filter_cons_of_neg (by simp [GitignoreEntry.isComment, GitignoreEntry.isBlank])]
        exact ih _
      · simp only [optGo]
        rw [if_neg h,
          List.filter_cons_of_neg (by simp [GitignoreEntry.isComment, GitignoreEntry.isBlank]),
          List.filter_cons_of_neg (by simp [GitignoreEntry.isComment, GitignoreEntry.isBlank])]
        exact ih _
    | comment c =>
      simp only [optGo]
      rw [List.filter_cons_of_pos (by simp [GitignoreEntry.isComment]),
        List.filter_cons_of_pos (by simp [GitignoreEntry.isComment])]
      rw [ih]
    | blank =>
      simp only [optGo]
      rw [List.filter_cons_of_pos (by simp [GitignoreEntry.isComment, GitignoreEntry.isBlank]),
        List.filter_cons_of_pos (by simp [GitignoreEntry.isComment, GitignoreEntry.isBlank])]
      rw [ih]

lemma optGo_sublist (es : List GitignoreEntry) :
    ∀ seen, (optGo seen es).Sublist es := by
  induction es with
  | nil => intro seen; exact List.Sublist.refl _
  | cons e rest ih =>
    intro seen
    obtain ⟨o, ty, ln⟩ := e
    cases ty with
    | pattern p =>
      by_cases h : (seen.any fun s => areEquivalentB p s) = true
      · simp only [optGo]
        rw [if_pos h]
        exact (ih seen).cons _
      · simp only [optGo]
        rw [if_neg h]
        exact (ih _).cons₂ _
    | comment c =>
      simp only [optGo]
      exact (ih seen).cons₂ _
    | blank =>
      simp only [optGo]
      exact (ih seen).cons₂ _

/-- C1: the claim says a pattern and its exact negation are never equivalent
under `are_equivalent` and that standard optimization keeps both; the code
disagrees: `are_equivalent("foo", "!foo")` is true (the bases are compared
after stripping negation), so optimizing `"foo\n!foo"` drops `"!foo"` —
contradicting the repository's own test
`test_tc20_pattern_conflicts_optimization`. This theorem evaluates the code at
that failing input. -/
theorem negation_collapses_under_equivalence :
    areEquivalentB "foo".data "!foo".data = true ∧
    (optimizeGitignore (parseGitignore "foo\n!foo".data)).entries.map (·.original) =
      ["foo".data] := by decide

/-- C2: the claim (and the repository's test
`test_tc04_root_vs_relative_optimization`) says both `/build` and `build`
survive standard optimization; the code treats the pair as equivalent via the
leading-slash rule and drops `build`. This theorem evaluates the code at that
failing input. -/
theorem root_vs_relative_collapses :
    areEquivalentB "build".data "/build".data = true ∧
    (optimizeGitignore (parseGitignore "/build\nbuild".data)).entries.map (·.original) =
      ["/build".data] := by decide

/-- C4: standard-mode optimization is idempotent — optimizing an already
optimized file changes nothing (the output is a fixed point, entries and
stats alike). -/
theorem optimize_idempotent (f : GitignoreFile) :
    optimizeGitignore (optimizeGitignore f) = optimizeGitignore f := by
  unfold optimizeGitignore
  rw [buildFile_entries, optGo_idem]

/-- C5: standard-mode optimization preserves the subsequence of Comment and
Blank entries exactly — same entries (original text, type payload and line
number included), same relative order. -/
theorem optimize_preserves_comments_blanks (f : GitignoreFile) :
    (optimizeGitignore f).entries.filter (fun e => e.isComment || e.isBlank) =
      f.entries.filter (fun e => e.isComment || e.isBlank) := by
  unfold optimizeGitignore
  rw [buildFile_entries]
  exact optGo_filter_nonpattern _ _

lemma head?_dropWhile_false {α : Type} (p : α → Bool) (l : List α) (a : α)
    (h : (l.dropWhile p).head? = some a) : p a = false := by
  induction l with
  | nil => simp at h
  | cons c t ih =>
    rw [List.dropWhile_cons] at h
    by_cases hc : p c = true
    · rw [if_pos hc] at h; exact ih h
    · rw [if_neg hc] at h
      simp only [List.head?_cons, Option.some.injEq] at h
      subst h
      exact Bool.eq_false_iff.mpr hc

lemma mem_trimEndWs {s : Str} {c : Char} (h : c ∈ trimEndWs s) : c ∈ s := by
  unfold trimEndWs at h
  rw [List.mem_reverse] at h
  exact List.mem_reverse.mp ((List.dropWhile_sublist _).mem h)

lemma forall_ws_trimEndWs {s : Str} (h : ∀ c ∈ trimEndWs s, rustIsWhitespace c = true) :
    ∀ c ∈ s, rustIsWhitespace c = true := by
  intro c hc
  have hc' : c ∈ s.reverse := List.mem_reverse.mpr hc
  rw [← List.takeWhile_append_dropWhile rustIsWhitespace s.reverse, List.mem_append] at hc'
  rcases hc' with hc' | hc'
  · exact List.mem_takeWhile_imp hc'
  · exact h c (by unfold trimEndWs; exact List.mem_reverse.mpr hc')

lemma rustTrim_isEmpty_eq_all (p : Str) :
    (rustTrim p).isEmpty = p.all rustIsWhitespace := by
  rw [Bool.eq_iff_iff, List.isEmpty_iff, List.all_eq_true]
  unfold rustTrim trimStartWs
  rw [List.dropWhile_eq_nil_iff]
  constructor
  · exact fun h => forall_ws_trimEndWs h
  · exact fun h c hc => h c (mem_trimEndWs hc)

/-- C9: `validate_pattern` returns the `InvalidPattern` error exactly when the
pattern is empty or whitespace-only (empty after trimming), and returns `Ok`
on every other input; no other error variant is possible. -/
theorem validate_pattern_spec (p : Str) :
    validatePattern p =
      (if p.all rustIsWhitespace then
        Except.error (GixError.invalidPattern "Pattern cannot be empty".data)
      else Except.ok ()) := by
  unfold validatePattern
  rw [rustTrim_isEmpty_eq_all]

lemma getLast?_trimEndWs_not_ws (s : Str) (c : Char)
    (h : (trimEndWs s).getLast? = some c) : rustIsWhitespace c = false := by
  unfold trimEndWs at h
  rw [List.getLast?_reverse] at h
  exact head?_dropWhile_false _ _ _ h

lemma trimEndWs_eq_self (s : Str)
    (h : ∀ c, s.getLast? = some c → rustIsWhitespace c = false) : trimEndWs s = s := by
  unfold trimEndWs
  cases hs : s.reverse with
  | nil =>
    have : s = [] := by simpa using congrArg List.reverse hs
    simp [this]
  | cons a t =>
    have ha : s.getLast? = some a := by
      rw [← List.head?_reverse, hs, List.head?_cons]
    rw [List.dropWhile_cons, h a ha]
    simp only [Bool.false_eq_true, if_false]
    rw [← hs, List.reverse_reverse]


lemma collapseGo_slash_true (t : Str) : collapseGo true ('/' :: t) = collapseGo true t := rfl

lemma collapseGo_slash_false (t : Str) :
    collapseGo false ('/' :: t) = '/' :: collapseGo true t := rfl

lemma collapseGo_cons_ne (b : Bool) {c : Char} (t : Str) (h : c ≠ '/') :
    collapseGo b (c :: t) = c :: collapseGo false t := by
  cases b <;> simp [collapseGo, h]

lemma collapseGo_true_head (s : Str) : (collapseGo true s).head? ≠ some '/' := by
  induction s with
  | nil => simp [collapseGo]
  | cons a t ih =>
    by_cases ha : a = '/'
    · subst ha
      rw [collapseGo_slash_true]
      exact ih
    · rw [collapseGo_cons_ne true t ha]
      simp only [List.head?_cons, ne_eq, Option.some.injEq]
      exact ha

lemma isPrefixOf_two_slash (X : Str) (h : X.head? ≠ some '/') :
    (['/', '/'] : Str).isPrefixOf ('/' :: X) = false := by
  cases X with
  | nil => rfl
  | cons x xs =>
    simp only [List.head?_cons, ne_eq, Option.some.injEq] at h
    simp [List.isPrefixOf]
    intro hx
    exact absurd hx.symm h

lemma isPrefixOf_two_slash_ne {c : Char} (X : Str) (h : c ≠ '/') :
    (['/', '/'] : Str).isPrefixOf (c :: X) = false := by
  simp [List.isPrefixOf]
  intro hx
  exact absurd hx.symm h

lemma strContainsB_cons (c : Char) (t sub : Str) :
    strContainsB (c :: t) sub = (sub.isPrefixOf (c :: t) || strContainsB t sub) := rfl

lemma collapseGo_noDouble (s : Str) :
    ∀ b, strContainsB (collapseGo b s) ['/', '/'] = false := by
  induction s with
  | nil => intro b; rfl
  | cons c t ih =>
    intro b
    by_cases hc : c = '/'
    · subst hc
      cases b with
      | true =>
        rw [collapseGo_slash_true]
        exact ih true
      | false =>
        rw [collapseGo_slash_false, strContainsB_cons,
          isPrefixOf_two_slash _ (collapseGo_true_head t), Bool.false_or]
        exact ih true
    · rw [collapseGo_cons_ne b t hc, strContainsB_cons,
        isPrefixOf_two_slash_ne _ hc, Bool.false_or]
      exact ih false

lemma collapseGo_true_of_head_ne (t : Str) (h : t.head? ≠ some '/') :
    collapseGo true t = collapseGo false t := by
  cases t with
  | nil => rfl
  | cons d t' =>
    simp only [List.head?_cons, ne_eq, Option.some.injEq] at h
    rw [collapseGo_cons_ne true t' h, collapseGo_cons_ne false t' h]

lemma collapseGo_eq_self (s : Str) (h : strContainsB s ['/', '/'] = false) :
    collapseGo false s = s := by
  induction s with
  | nil => rfl
  | cons c t ih =>
    rw [strContainsB_cons, Bool.or_eq_false_iff] at h
    by_cases hc : c = '/'
    · subst hc
      have hhead : t.head? ≠ some '/' := by
        intro hh
        cases t with
        | nil => simp at hh
        | cons d t' =>
          simp only [List.head?_cons, Option.some.injEq] at hh
          subst hh
          simp [List.isPrefixOf] at h
      rw [collapseGo_slash_false, collapseGo_true_of_head_ne t hhead, ih h.2]
    · rw [collapseGo_cons_ne false t hc, ih h.2]

lemma collapseGo_false_ne_nil (t : Str) (h : t ≠ []) : collapseGo false t ≠ [] := by
  cases t with
  | nil => exact absurd rfl h
  | cons d t' =>
    by_cases hd : d = '/'
    · subst hd
      rw [collapseGo_slash_false]
      exact List.cons_ne_nil _ _
    · rw [collapseGo_cons_ne false t' hd]
      exact List.cons_ne_nil _ _

lemma getLast?_cons_of_ne_nil {c : Char} {X : Str} (h : X ≠ []) :
    (c :: X).getLast? = X.getLast? := by
  cases X with
  | nil => exact absurd rfl h
  | cons x xs => exact List.getLast?_cons_cons

lemma collapseGo_getLast (s : Str) :
    ∀ b, collapseGo b s = [] ∨ (collapseGo b s).getLast? = s.getLast? ∨
      (collapseGo b s).getLast? = some '/' := by
  induction s with
  | nil => intro b; exact Or.inl rfl
  | cons c t ih =>
    intro b
    by_cases hc : c = '/'
    · subst hc
      cases t with
      | nil =>
        cases b with
        | true => exact Or.inl rfl
        | false => exact Or.inr (Or.inr rfl)
      | cons d t' =>
        have hlast : ('/' :: d :: t').getLast? = (d :: t').getLast? := List.getLast?_cons_cons
        cases b with
        | true =>
          rw [collapseGo_slash_true]
          rcases ih true with h0 | h0 | h0
          · exact Or.inl h0
          · exact Or.inr (Or.inl (by rw [h0, hlast]))
          · exact Or.inr (Or.inr h0)
        | false =>
          rw [collapseGo_slash_false]
          by_cases hX : collapseGo true (d :: t') = []
          · rw [hX]
            exact Or.inr (Or.inr rfl)
          · rw [getLast?_cons_of_ne_nil hX]
            rcases ih true with h0 | h0 | h0
            · exact absurd h0 hX
            · exact Or.inr (Or.inl (by rw [h0, hlast]))
            · exact Or.inr (Or.inr h0)
    · cases t with
      | nil =>
        rw [collapseGo_cons_ne b [] hc]
        exact Or.inr (Or.inl rfl)
      | cons d t' =>
        rw [collapseGo_cons_ne b (d :: t') hc]
        have hne : collapseGo false (d :: t') ≠ [] :=
          collapseGo_false_ne_nil _ (List.cons_ne_nil _ _)
        rw [getLast?_cons_of_ne_nil hne]
        have hlast : (c :: d :: t').getLast? = (d :: t').getLast? := List.getLast?_cons_cons
        rcases ih false with h0 | h0 | h0
        · exact absurd h0 hne
        · exact Or.inr (Or.inl (by rw [h0, hlast]))
        · exact Or.inr (Or.inr h0)

lemma normalizePattern_getLast_not_ws (p : Str) (c : Char)
    (h : (normalizePattern p).getLast? = some c) : rustIsWhitespace c = false := by
  unfold normalizePattern collapseSlashes at h
  rcases collapseGo_getLast (trimEndWs p) false with h0 | h0 | h0
  · rw [h0] at h; simp at h
  · rw [h0] at h; exact getLast?_trimEndWs_not_ws p c h
  · rw [h0] at h
    simp only [Option.some.injEq] at h
    subst h
    decide

lemma normalizePattern_fixed (s : Str)
    (h1 : ∀ c, s.getLast? = some c → rustIsWhitespace c = false)
    (h2 : strContainsB s ['/', '/'] = false) : normalizePattern s = s := by
  unfold normalizePattern collapseSlashes
  rw [trimEndWs_eq_self s h1, collapseGo_eq_self s h2]

/-- C10: pattern normalization (default analyzer) is idempotent; every
normalized output ends in no whitespace and contains no two consecutive
slashes, and every string with those two properties is a fixed point of
`normalize_pattern`. -/
theorem normalize_pattern_idempotent :
    (∀ p, normalizePattern (normalizePattern p) = normalizePattern p) ∧
    (∀ p c, (normalizePattern p).getLast? = some c → rustIsWhitespace c = false) ∧
    (∀ p, strContainsB (normalizePattern p) ['/', '/'] = false) ∧
    (∀ s, (∀ c, s.getLast? = some c → rustIsWhitespace c = false) →
      strContainsB s ['/', '/'] = false → normalizePattern s = s) := by
  refine ⟨?_, ?_, ?_, ?_⟩
  · intro p
    exact normalizePattern_fixed _ (normalizePattern_getLast_not_ws p)
      (collapseGo_noDouble _ _)
  · exact normalizePattern_getLast_not_ws
  · intro p; exact collapseGo_noDouble _ _
  · exact normalizePattern_fixed

/-- Witness for C10: the no-trailing-whitespace conclusion at `"xa "` and the
fixed-point conclusion at `"a/b"`, with all hypotheses discharged on concrete
inputs. -/
theorem normalize_pattern_idempotent_witness :
    rustIsWhitespace 'a' = false ∧ normalizePattern "a/b".data = "a/b".data :=
  ⟨normalize_pattern_idempotent.2.1 "xa ".data 'a' (by decide),
   normalize_pattern_idempotent.2.2.2 "a/b".data (by decide) (by decide)⟩

lemma parseLine_lineNumber (l : Str) (n : Nat) : (parseLine l n).lineNumber = n := by
  unfold parseLine
  by_cases h1 : (rustTrim l).isEmpty = true
  · rw [if_pos h1]
  · rw [if_neg h1]
    by_cases h2 : (['#'].isPrefixOf l && !(['\\', '#'].isPrefixOf l)) = true
    · rw [if_pos h2]
    · rw [if_neg h2]

lemma parseLine_original (l : Str) (n : Nat) : (parseLine l n).original = l := by
  unfold parseLine
  by_cases h1 : (rustTrim l).isEmpty = true
  · rw [if_pos h1]
  · rw [if_neg h1]
    by_cases h2 : (['#'].isPrefixOf l && !(['\\', '#'].isPrefixOf l)) = true
    · rw [if_pos h2]
    · rw [if_neg h2]

lemma parseEntries_map_lineNumber : ∀ (ls : List Str) (n : Nat),
    (parseEntries ls n).map (·.lineNumber) = List.range' n ls.length := by
  intro ls
  induction ls with
  | nil => intro n; rfl
  | cons l ls ih =>
    intro n
    simp only [parseEntries, List.map_cons, parseLine_lineNumber, List.length_cons, ih]
    rw [List.range'_succ]

lemma statsConsistent_addEntry (f : GitignoreFile) (e : GitignoreEntry)
    (h : statsConsistent f) : statsConsistent (f.addEntry e) := by
  obtain ⟨h1, h2, h3, h4⟩ := h
  obtain ⟨o, ty, ln⟩ := e
  cases ty <;>
    simp [GitignoreFile.addEntry, FileStats.update, statsConsistent, List.filter_append,
      GitignoreEntry.isPattern, GitignoreEntry.isComment, GitignoreEntry.isBlank,
      h1, h2, h3, h4]

lemma statsConsistent_foldl (es : List GitignoreEntry) :
    ∀ f, statsConsistent f → statsConsistent (es.foldl GitignoreFile.addEntry f) := by
  induction es with
  | nil => intro f h; exact h
  | cons e rest ih =>
    intro f h
    exact ih _ (statsConsistent_addEntry f e h)

lemma statsConsistent_buildFile (es : List GitignoreEntry) :
    statsConsistent (buildFile es) :=
  statsConsistent_foldl es GitignoreFile.new (by decide)

lemma optAgGo_sublist (es : List GitignoreEntry) :
    ∀ seenP seenC lastBlank, (optAgGo seenP seenC lastBlank es).Sublist es := by
  induction es with
  | nil => intro _ _ _; exact List.Sublist.refl _
  | cons e rest ih =>
    intro seenP seenC lastBlank
    obtain ⟨o, ty, ln⟩ := e
    cases ty with
    | pattern p =>
      by_cases h : (seenP.any fun s => areEquivalentB p s) = true
      · simp only [optAgGo]
        rw [if_pos h]
        exact (ih _ _ _).cons _
      · simp only [optAgGo]
        rw [if_neg h]
        exact (ih _ _ _).cons₂ _
    | comment c =>
      by_cases h : (seenC.contains (rustTrim c)) = true
      · simp only [optAgGo]
        rw [if_pos h]
        exact (ih _ _ _).cons _
      · simp only [optAgGo]
        rw [if_neg h]
        exact (ih _ _ _).cons₂ _
    | blank =>
      by_cases h : lastBlank = true
      · simp only [optAgGo]
        rw [if_pos h]
        exact (ih _ _ _).cons _
      · simp only [optAgGo]
        rw [if_neg h]
        exact (ih _ _ _).cons₂ _

lemma ascendingLines_of_sublist (f : GitignoreFile) (es : List GitignoreEntry)
    (hsub : es.Sublist f.entries) (h : ascendingLines f) :
    ((es.map (·.lineNumber)).Pairwise (· < ·)) :=
  h.sublist (hsub.map _)

/-- C7 counterexample: the claim as stated is false — `add_entry` does not in
general preserve the invariant, since appending an entry whose line number
does not exceed the existing ones breaks strict ascent (counts stay
consistent, order does not). -/
theorem add_entry_breaks_invariant :
    fileInvariant (buildFile [⟨"a".data, .pattern "a".data, 1⟩]) ∧
    ¬ fileInvariant ((buildFile [⟨"a".data, .pattern "a".data, 1⟩]).addEntry
        ⟨"b".data, .pattern "b".data, 1⟩) := by decide

/-- C7 amended: parsing always yields the invariant; each optimize variant
preserves it (an arbitrary input file need not satisfy it, so it is assumed);
`add_entry` always preserves count consistency and preserves the full
invariant when the appended entry's line number exceeds all existing ones. -/
theorem file_invariant_preserved :
    (∀ T, fileInvariant (parseGitignore T)) ∧
    (∀ f, fileInvariant f →
      fileInvariant (optimizeGitignore f) ∧
      fileInvariant (optimizeGitignoreAggressive f) ∧
      fileInvariant (optimizeGitignoreWithConflicts f).1) ∧
    (∀ f e, statsConsistent f → statsConsistent (f.addEntry e)) ∧
    (∀ f e, fileInvariant f → (∀ x ∈ f.entries, x.lineNumber < e.lineNumber) →
      fileInvariant (f.addEntry e)) := by
  refine ⟨?_, ?_, statsConsistent_addEntry, ?_⟩
  · intro T
    refine ⟨statsConsistent_buildFile _, ?_⟩
    unfold ascendingLines parseGitignore
    rw [buildFile_entries, parseEntries_map_lineNumber]
    exact List.pairwise_lt_range' _ _
  · intro f hf
    refine ⟨⟨statsConsistent_buildFile _, ?_⟩, ⟨statsConsistent_buildFile _, ?_⟩,
      ⟨statsConsistent_buildFile _, ?_⟩⟩
    · unfold ascendingLines optimizeGitignore
      rw [buildFile_entries]
      exact ascendingLines_of_sublist f _ (optGo_sublist _ _) hf.2
    · unfold ascendingLines optimizeGitignoreAggressive
      rw [buildFile_entries]
      exact ascendingLines_of_sublist f _ (optAgGo_sublist _ _ _ _) hf.2
    · unfold ascendingLines optimizeGitignoreWithConflicts
      rw [buildFile_entries]
      exact ascendingLines_of_sublist f _ (optGo_sublist _ _) hf.2
  · intro f e hf hb
    refine ⟨statsConsistent_addEntry f e hf.1, ?_⟩
    unfold ascendingLines GitignoreFile.addEntry
    rw [List.map_append, List.pairwise_append]
    refine ⟨hf.2, List.pairwise_singleton _ _, ?_⟩
    intro a ha b hb'
    simp only [List.map_cons, List.map_nil, List.mem_singleton] at hb'
    subst hb'
    rw [List.mem_map] at ha
    obtain ⟨x, hx, rfl⟩ := ha
    exact hb x hx

/-- Witness for C7: the optimizer-preservation and `add_entry` conclusions
applied at concrete files, hypotheses discharged by evaluation. -/
theorem file_invariant_preserved_witness :
    fileInvariant (optimizeGitignore (parseGitignore "a\nb".data)) ∧
    fileInvariant ((buildFile [⟨"a".data, .pattern "a".data, 1⟩]).addEntry
        ⟨"b".data, .pattern "b".data, 2⟩) :=
  ⟨(file_invariant_preserved.2.1 _ (by decide)).1,
   file_invariant_preserved.2.2.2 _ _ (by decide) (by decide)⟩

/-- C8: the three pinned categorizations hold, and for every pattern the
category groups decide the result in the fixed precedence order
OperatingSystem, Language, Tool, Framework, custom heuristic, Uncategorized. -/
theorem categorize_pattern_spec :
    categorizePattern ".DS_Store".data = .operatingSystem "macOS" ∧
    categorizePattern "*.pyc".data = .language "Python" ∧
    categorizePattern "totally_random_name.xyz".data = .uncategorized ∧
    (∀ p,
      ((findCategoryName osPatternsKB (rustTrim p)).isSome →
        ∃ name, categorizePattern p = .operatingSystem name) ∧
      (findCategoryName osPatternsKB (rustTrim p) = none →
        (findCategoryName languagePatternsKB (rustTrim p)).isSome →
        ∃ name, categorizePattern p = .language name) ∧
      (findCategoryName osPatternsKB (rustTrim p) = none →
        findCategoryName languagePatternsKB (rustTrim p) = none →
        (findCategoryName toolPatternsKB (rustTrim p)).isSome →
        ∃ name, categorizePattern p = .tool name) ∧
      (findCategoryName osPatternsKB (rustTrim p) = none →
        findCategoryName languagePatternsKB (rustTrim p) = none →
        findCategoryName toolPatternsKB (rustTrim p) = none →
        (findCategoryName frameworkPatternsKB (rustTrim p)).isSome →
        ∃ name, categorizePattern p = .framework name) ∧
      (findCategoryName osPatternsKB (rustTrim p) = none →
        findCategoryName languagePatternsKB (rustTrim p) = none →
        findCategoryName toolPatternsKB (rustTrim p) = none →
        findCategoryName frameworkPatternsKB (rustTrim p) = none →
        isCustomPatternB (rustTrim p) = true →
        categorizePattern p = .custom "Project-specific") ∧
      (findCategoryName osPatternsKB (rustTrim p) = none →
        findCategoryName languagePatternsKB (rustTrim p) = none →
        findCategoryName toolPatternsKB (rustTrim p) = none →
        findCategoryName frameworkPatternsKB (rustTrim p) = none →
        isCustomPatternB (rustTrim p) = false →
        categorizePattern p = .uncategorized)) := by
  refine ⟨by decide, by decide, by decide, ?_⟩
  intro p
  rcases hos : findCategoryName osPatternsKB (rustTrim p) with _ | os <;>
  rcases hlang : findCategoryName languagePatternsKB (rustTrim p) with _ | lang <;>
  rcases htool : findCategoryName toolPatternsKB (rustTrim p) with _ | tool <;>
  rcases hfw : findCategoryName frameworkPatternsKB (rustTrim p) with _ | fw <;>
  refine ⟨?_, ?_, ?_, ?_, ?_, ?_⟩ <;>
  simp [categorizePattern, hos, hlang, htool, hfw]

/-- Witness for C8: the Tool-group conclusion of the precedence clause at the
concrete pattern `.vscode/`, all hypotheses discharged by evaluation. -/
theorem categorize_pattern_spec_witness :
    ∃ name, categorizePattern ".vscode/".data = PatternCategory.tool name :=
  (categorize_pattern_spec.2.2.2 ".vscode/".data).2.2.1 (by decide) (by decide) (by decide)

lemma isPrefixOfB_refl : ∀ s : Str, s.isPrefixOf s = true := by
  intro s
  induction s with
  | nil => rfl
  | cons c t ih => simp [List.isPrefixOf, ih]

lemma isPrefixOfB_append (sub : Str) : ∀ (w v : Str),
    sub.isPrefixOf w = true → sub.isPrefixOf (w ++ v) = true := by
  induction sub with
  | nil => intro w v _; simp [List.isPrefixOf]
  | cons a as ih =>
    intro w v h
    cases w with
    | nil => exact absurd h (by simp [List.isPrefixOf])
    | cons b bs =>
      simp only [List.isPrefixOf, Bool.and_eq_true] at h
      simp only [List.cons_append, List.isPrefixOf, Bool.and_eq_true]
      exact ⟨h.1, ih bs v h.2⟩

lemma strContainsB_nil_sub (v : Str) : strContainsB v [] = true := by
  cases v with
  | nil => rfl
  | cons c t => simp [strContainsB, List.isPrefixOf]

lemma strContainsB_self (s : Str) : strContainsB s s = true := by
  cases s with
  | nil => rfl
  | cons c t => simp [strContainsB, isPrefixOfB_refl]

lemma strContainsB_append_of_left (sub w v : Str) (h : strContainsB w sub = true) :
    strContainsB (w ++ v) sub = true := by
  induction w with
  | nil =>
    have : sub = [] := by simpa [strContainsB, List.isEmpty_iff] using h
    subst this
    simpa using strContainsB_nil_sub v
  | cons c t ih =>
    rw [strContainsB_cons] at h
    rcases Bool.or_eq_true_iff.mp h with h1 | h1
    · rw [List.cons_append, strContainsB_cons]
      have := isPrefixOfB_append sub (c :: t) v h1
      rw [List.cons_append] at this
      rw [this, Bool.true_or]
    · rw [List.cons_append, strContainsB_cons, ih h1, Bool.or_true]

lemma strContainsB_append_of_right (sub w v : Str) (h : strContainsB v sub = true) :
    strContainsB (w ++ v) sub = true := by
  induction w with
  | nil => exact h
  | cons c t ih => rw [List.cons_append, strContainsB_cons, ih, Bool.or_true]

lemma strContainsB_false_of_append_left (sub w v : Str)
    (h : strContainsB (w ++ v) sub = false) : strContainsB w sub = false := by
  cases hw : strContainsB w sub with
  | false => rfl
  | true => rw [strContainsB_append_of_left sub w v hw] at h; exact h

lemma strContainsB_false_of_append_right (sub w v : Str)
    (h : strContainsB (w ++ v) sub = false) : strContainsB v sub = false := by
  cases hv : strContainsB v sub with
  | false => rfl
  | true => rw [strContainsB_append_of_right sub w v hv] at h; exact h

lemma splitInc_cons_ne_nil (c : Char) (t : Str) : splitInc (c :: t) ≠ [] := by
  by_cases hc : c = '\n'
  · simp [splitInc, hc]
  · simp only [splitInc, if_neg hc]
    cases splitInc t <;> simp

lemma splitInc_eq_nil_iff (t : Str) : splitInc t = [] ↔ t = [] := by
  cases t with
  | nil => simp [splitInc]
  | cons c t' =>
    constructor
    · intro h; exact absurd h (splitInc_cons_ne_nil c t')
    · intro h; exact absurd h (List.cons_ne_nil c t')

lemma splitInc_first : ∀ (T ch : Str) (rest : List Str), splitInc T = ch :: rest →
    ch ≠ [] ∧ ∃ u, T = ch ++ u ∧ splitInc u = rest := by
  intro T
  induction T with
  | nil => intro ch rest h; simp [splitInc] at h
  | cons c t ih =>
    intro ch rest h
    by_cases hc : c = '\n'
    · subst hc
      rw [show splitInc ('\n' :: t) = ['\n'] :: splitInc t from by simp [splitInc]] at h
      obtain ⟨h1, h2⟩ := List.cons.inj h
      subst h1
      exact ⟨List.cons_ne_nil _ _, t, rfl, h2⟩
    · simp only [splitInc, if_neg hc] at h
      cases hs : splitInc t with
      | nil =>
        rw [hs] at h
        obtain ⟨h1, h2⟩ := List.cons.inj h
        subst h1
        exact ⟨List.cons_ne_nil _ _, t, rfl, by rw [hs, h2]⟩
      | cons ch' rest' =>
        rw [hs] at h
        obtain ⟨h1, h2⟩ := List.cons.inj h
        subst h1
        obtain ⟨_, u, hu, hru⟩ := ih ch' rest' hs
        exact ⟨List.cons_ne_nil _ _, u, by rw [List.cons_append, ← hu], by rw [hru, h2]⟩

lemma mem_splitInc_contains_false (sub : Str) :
    ∀ (n : Nat) (T : Str), T.length ≤ n → strContainsB T sub = false →
      ∀ ch ∈ splitInc T, strContainsB ch sub = false := by
  intro n
  induction n with
  | zero =>
    intro T hT h ch hch
    have : T = [] := List.length_eq_zero.mp (Nat.le_zero.mp hT)
    subst this
    simp [splitInc] at hch
  | succ n ih =>
    intro T hT h ch hch
    cases hs : splitInc T with
    | nil => rw [hs] at hch; simp at hch
    | cons ch0 rest =>
      obtain ⟨hne, u, hu, hru⟩ := splitInc_first T ch0 rest hs
      rw [hs] at hch
      rcases List.mem_cons.mp hch with rfl | hmem
      · exact strContainsB_false_of_append_left sub ch u (hu ▸ h)
      · have hul : u.length ≤ n := by
          have hlen : T.length = ch0.length + u.length := by
            rw [hu]; exact List.length_append _ _
          have hpos : 0 < ch0.length := List.length_pos.mpr hne
          omega
        have hcu : strContainsB u sub = false :=
          strContainsB_false_of_append_right sub ch0 u (hu ▸ h)
        exact ih u hul hcu ch (hru ▸ hmem)

lemma chunkToLine_eq_stripNl (ch : Str) (h : strContainsB ch ['\r', '\n'] = false) :
    chunkToLine ch = stripNl ch := by
  unfold chunkToLine stripNl
  by_cases h1 : ch.getLast? = some '\n'
  · rw [if_pos h1, if_pos h1]
    dsimp only
    by_cases h2 : ch.dropLast.getLast? = some '\r'
    · exfalso
      obtain ⟨l1, hl1⟩ := List.getLast?_eq_some_iff.mp h1
      have hd : ch.dropLast = l1 := by rw [hl1]; exact List.dropLast_concat
      rw [hd] at h2
      obtain ⟨l2, hl2⟩ := List.getLast?_eq_some_iff.mp h2
      have hch : ch = l2 ++ ['\r', '\n'] := by rw [hl1, hl2]; simp
      rw [hch, strContainsB_append_of_right ['\r', '\n'] l2 ['\r', '\n']
        (strContainsB_self _)] at h
      exact Bool.true_eq_false.mp h
    · rw [if_neg h2]
  · rw [if_neg h1, if_neg h1]

lemma stripNl_cons (c : Char) (ch : Str) (h : ch ≠ []) :
    stripNl (c :: ch) = c :: stripNl ch := by
  unfold stripNl
  rw [getLast?_cons_of_ne_nil h]
  by_cases h1 : ch.getLast? = some '\n'
  · rw [if_pos h1, if_pos h1, List.dropLast_cons_of_ne_nil h]
  · rw [if_neg h1, if_neg h1]

lemma joinNl_cons_head (c : Char) (x : Str) (xs : List Str) :
    joinNl ((c :: x) :: xs) = c :: joinNl (x :: xs) := by
  cases xs with
  | nil => rfl
  | cons y ys => rfl

lemma joinNl_stripNl : ∀ T : Str,
    joinNl ((splitInc T).map stripNl) =
      if T.getLast? = some '\n' then T.dropLast else T := by
  intro T
  induction T with
  | nil => rfl
  | cons c t ih =>
    by_cases hc : c = '\n'
    · subst hc
      rw [show splitInc ('\n' :: t) = ['\n'] :: splitInc t from by simp [splitInc],
        List.map_cons, show stripNl ['\n'] = [] from rfl]
      cases t with
      | nil => rfl
      | cons d t' =>
        rcases hs : splitInc (d :: t') with _ | ⟨ch0, rest⟩
        · exact absurd hs (splitInc_cons_ne_nil d t')
        · obtain ⟨x, xs, hxs⟩ : ∃ x xs, List.map stripNl (splitInc (d :: t')) = x :: xs := by
            rw [hs, List.map_cons]
            exact ⟨_, _, rfl⟩
          rw [hs] at ih hxs
          rw [hxs, show joinNl (([] : Str) :: x :: xs) = '\n' :: joinNl (x :: xs) from rfl,
            ← hxs, ih, getLast?_cons_of_ne_nil (List.cons_ne_nil d t')]
          by_cases ht : (d :: t').getLast? = some '\n'
          · rw [if_pos ht, if_pos ht, List.dropLast_cons_of_ne_nil (List.cons_ne_nil d t')]
          · rw [if_neg ht, if_neg ht]
    · rcases hs : splitInc t with _ | ⟨ch0, rest⟩
      · have ht : t = [] := (splitInc_eq_nil_iff t).mp hs
        subst ht
        rw [show splitInc (c :: []) = [[c]] from by simp [splitInc, hc]]
        have hstrip : stripNl [c] = [c] := by
          unfold stripNl
          rw [List.getLast?_singleton, if_neg]
          intro hx
          exact hc (Option.some.inj hx)
        rw [List.map_cons, List.map_nil, hstrip]
        have hlast : (c :: ([] : Str)).getLast? = some c := List.getLast?_singleton c
        rw [show joinNl [[c]] = [c] from rfl, hlast, if_neg]
        intro hx
        exact hc (Option.some.inj hx)
      · have htne : t ≠ [] := by
          intro hx
          subst hx
          simp [splitInc] at hs
        obtain ⟨hne, u, hu, hru⟩ := splitInc_first t ch0 rest hs
        rw [show splitInc (c :: t) = (c :: ch0) :: rest from by
            simp only [splitInc, if_neg hc, hs],
          List.map_cons, stripNl_cons c ch0 hne, joinNl_cons_head,
          ← List.map_cons, ← hs, ih, getLast?_cons_of_ne_nil htne]
        by_cases ht : t.getLast? = some '\n'
        · rw [if_pos ht, if_pos ht, List.dropLast_cons_of_ne_nil htne]
        · rw [if_neg ht, if_neg ht]

lemma parseEntries_map_original : ∀ (ls : List Str) (n : Nat),
    (parseEntries ls n).map (·.original) = ls := by
  intro ls
  induction ls with
  | nil => intro n; rfl
  | cons l ls ih =>
    intro n
    simp only [parseEntries, List.map_cons, parseLine_original, ih]

/-- C3 counterexample: the round-trip claim fails on text containing a CRLF
sequence — Rust `str::lines` strips the `'\r'` of a `"\r\n"` line ending, so
rendering does not reproduce it (here the text has no final newline, so the
claim demands exact reproduction). -/
theorem crlf_breaks_roundtrip :
    "a\r\nb".data.getLast? ≠ some '\n' ∧
    (parseGitignore "a\r\nb".data).render ≠ "a\r\nb".data := by decide

/-- C3 amended: for every input text containing no CRLF sequence, rendering
the un-optimized parse reproduces the text exactly, except that a final
trailing newline is not reproduced. -/
theorem parse_render_roundtrip (T : Str)
    (h : strContainsB T ['\r', '\n'] = false) :
    (parseGitignore T).render =
      if T.getLast? = some '\n' then T.dropLast else T := by
  unfold GitignoreFile.render parseGitignore
  rw [buildFile_entries, parseEntries_map_original]
  unfold rustLines
  rw [List.map_congr_left (fun ch hch => chunkToLine_eq_stripNl ch
    (mem_splitInc_contains_false ['\r', '\n'] T.length T (le_refl _) h ch hch))]
  exact joinNl_stripNl T

/-- Witness for C3: the round trip at the concrete CRLF-free text
`"a\nb\n"`. -/
theorem parse_render_roundtrip_witness :
    (parseGitignore "a\nb\n".data).render =
      (if "a\nb\n".data.getLast? = some '\n' then "a\nb\n".data.dropLast
       else "a\nb\n".data) :=
  parse_render_roundtrip "a\nb\n".data (by decide)

lemma escState_cons (b : Bool) (c : Char) (l : Str) :
    escState b (c :: l) = escState (if b then false else c == '\\') l := rfl

lemma ricGo_char_spec : ∀ (s : Str) (b : Bool),
    ricGo s b = s.take (ricGo s b).length ∧
    (∀ i, i < (ricGo s b).length → s[i]? = some '#' → escState b (s.take i) = true) ∧
    ((ricGo s b).length < s.length → s[(ricGo s b).length]? = some '#' ∧
      escState b (s.take ((ricGo s b).length)) = false) := by
  intro s
  induction s with
  | nil =>
    intro b
    refine ⟨rfl, ?_, ?_⟩
    · intro i hi; simp [ricGo] at hi
    · intro hlen; simp [ricGo] at hlen
  | cons c t ih =>
    intro b
    cases b with
    | true =>
      have he : ricGo (c :: t) true = c :: ricGo t false := by simp [ricGo]
      obtain ⟨ih1, ih2, ih3⟩ := ih false
      refine ⟨?_, ?_, ?_⟩
      · rw [he, List.length_cons, List.take_succ_cons, ← ih1]
      · intro i hi hc'
        rw [he, List.length_cons] at hi
        cases i with
        | zero => rfl
        | succ j =>
          rw [List.getElem?_cons_succ] at hc'
          rw [List.take_succ_cons, escState_cons, if_pos rfl]
          exact ih2 j (by omega) hc'
      · intro hlen
        rw [he, List.length_cons] at hlen ⊢
        rw [List.length_cons] at hlen
        refine ⟨?_, ?_⟩
        · rw [List.getElem?_cons_succ]
          exact (ih3 (by omega)).1
        · rw [List.take_succ_cons, escState_cons, if_pos rfl]
          exact (ih3 (by omega)).2
    | false =>
      by_cases hbs : c = '\\'
      · subst hbs
        have he : ricGo ('\\' :: t) false = '\\' :: ricGo t true := by simp [ricGo]
        obtain ⟨ih1, ih2, ih3⟩ := ih true
        have hstep : (if false then false else ('\\' : Char) == '\\') = true := by decide
        refine ⟨?_, ?_, ?_⟩
        · rw [he, List.length_cons, List.take_succ_cons, ← ih1]
        · intro i hi hc'
          rw [he, List.length_cons] at hi
          cases i with
          | zero =>
            rw [List.getElem?_cons_zero] at hc'
            exact absurd (Option.some.inj hc') (by decide)
          | succ j =>
            rw [List.getElem?_cons_succ] at hc'
            rw [List.take_succ_cons, escState_cons, hstep]
            exact ih2 j (by omega) hc'
        · intro hlen
          rw [he, List.length_cons] at hlen ⊢
          rw [List.length_cons] at hlen
          refine ⟨?_, ?_⟩
          · rw [List.getElem?_cons_succ]
            exact (ih3 (by omega)).1
          · rw [List.take_succ_cons, escState_cons, hstep]
            exact (ih3 (by omega)).2
      · by_cases hch : c = '#'
        · subst hch
          have he : ricGo ('#' :: t) false = [] := by simp [ricGo]
          refine ⟨by rw [he]; rfl, ?_, ?_⟩
          · intro i hi
            rw [he] at hi
            simp at hi
          · intro _
            rw [he]
            refine ⟨?_, rfl⟩
            rw [List.length_nil, List.getElem?_cons_zero]
        · have he : ricGo (c :: t) false = c :: ricGo t false := by simp [ricGo, hbs, hch]
          obtain ⟨ih1, ih2, ih3⟩ := ih false
          have hstep : (if false then false else c == '\\') = false := by
            rw [if_neg Bool.false_ne_true]
            exact beq_eq_false_iff_ne.mpr hbs
          refine ⟨?_, ?_, ?_⟩
          · rw [he, List.length_cons, List.take_succ_cons, ← ih1]
          · intro i hi hc'
            rw [he, List.length_cons] at hi
            cases i with
            | zero =>
              rw [List.getElem?_cons_zero] at hc'
              exact absurd (Option.some.inj hc') hch
            | succ j =>
              rw [List.getElem?_cons_succ] at hc'
              rw [List.take_succ_cons, escState_cons, hstep]
              exact ih2 j (by omega) hc'
          · intro hlen
            rw [he, List.length_cons] at hlen ⊢
            rw [List.length_cons] at hlen
            refine ⟨?_, ?_⟩
            · rw [List.getElem?_cons_succ]
              exact (ih3 (by omega)).1
            · rw [List.take_succ_cons, escState_cons, hstep]
              exact (ih3 (by omega)).2

/-- C6: per-line classification of the parser — Blank on empty/all-whitespace
lines, Comment (storing the full line) on lines beginning with `'#'` (which is
then necessarily unescaped), otherwise Pattern whose stored string is the
prefix of the line truncated at the first unescaped `'#'` under the
backslash-escape scan (escaped characters keep their backslash because the
stored string is a literal prefix of the line); `original` always keeps the
whole line, and line numbers are the 1-based input positions. -/
theorem parse_line_classification (l : Str) (n : Nat) :
    (parseLine l n).original = l ∧
    (parseLine l n).lineNumber = n ∧
    ((∀ c ∈ l, rustIsWhitespace c = true) → (parseLine l n).entryType = .blank) ∧
    ((¬ ∀ c ∈ l, rustIsWhitespace c = true) → l.head? = some '#' →
      (parseLine l n).entryType = .comment l) ∧
    ((¬ ∀ c ∈ l, rustIsWhitespace c = true) → l.head? ≠ some '#' →
      (parseLine l n).entryType = .pattern (removeInlineComment l) ∧
      removeInlineComment l = l.take (removeInlineComment l).length ∧
      (∀ i, i < (removeInlineComment l).length → l[i]? = some '#' →
        escState false (l.take i) = true) ∧
      ((removeInlineComment l).length < l.length →
        l[(removeInlineComment l).length]? = some '#' ∧
        escState false (l.take ((removeInlineComment l).length)) = false)) ∧
    (∀ T, (parseGitignore T).entries.map (·.lineNumber) =
      List.range' 1 (rustLines T).length) := by
  refine ⟨parseLine_original l n, parseLine_lineNumber l n, ?_, ?_, ?_, ?_⟩
  · intro hws
    unfold parseLine
    rw [if_pos (by rw [rustTrim_isEmpty_eq_all]; exact List.all_eq_true.mpr hws)]
  · intro hws hh
    have h1 : (rustTrim l).isEmpty = false := by
      rw [rustTrim_isEmpty_eq_all]
      cases hall : l.all rustIsWhitespace with
      | false => rfl
      | true => exact absurd (fun c hc => List.all_eq_true.mp hall c hc) hws
    obtain ⟨t, ht⟩ : ∃ t, l = '#' :: t := by
      cases l with
      | nil => simp at hh
      | cons a t =>
        simp only [List.head?_cons, Option.some.injEq] at hh
        subst hh
        exact ⟨t, rfl⟩
    subst ht
    unfold parseLine
    rw [if_neg (by simp [h1]), if_pos (by simp [List.isPrefixOf])]
  · intro hws hh
    have h1 : (rustTrim l).isEmpty = false := by
      rw [rustTrim_isEmpty_eq_all]
      cases hall : l.all rustIsWhitespace with
      | false => rfl
      | true => exact absurd (fun c hc => List.all_eq_true.mp hall c hc) hws
    obtain ⟨a, t, ha, hat⟩ : ∃ a t, a ≠ '#' ∧ l = a :: t := by
      cases l with
      | nil => exact absurd (fun c hc => absurd hc (List.not_mem_nil c)) hws
      | cons a t =>
        simp only [List.head?_cons, ne_eq, Option.some.injEq] at hh
        exact ⟨a, t, hh, rfl⟩
    have h2 : (['#'].isPrefixOf l && !(['\\', '#'].isPrefixOf l)) = false := by
      rw [hat]
      have hba : ('#' == a) = false := beq_eq_false_iff_ne.mpr (fun h => ha h.symm)
      simp [List.isPrefixOf, hba]
    refine ⟨?_, (ricGo_char_spec l false).1, (ricGo_char_spec l false).2.1,
      (ricGo_char_spec l false).2.2⟩
    unfold parseLine
    rw [if_neg (by simp [h1]), if_neg (by simp [h2])]
  · intro T
    unfold parseGitignore
    rw [buildFile_entries, parseEntries_map_lineNumber]

/-- Witness for C6: the Pattern-case conclusion at the concrete l
`"ab#c"`, hypotheses discharged by evaluation. -/
theorem parse_line_classification_witness :
    (parseLine "ab#c".data 3).entryType = .pattern (removeInlineComment "ab#c".data) :=
  ((parse_line_classification "ab#c".data 3).2.2.2.2.1 (by decide) (by decide)).1
